import Mathlib

/-!
Formal model of the concurrency-coordination layer of the whaleos-chromite
IDE tooling (common_util.ts: Mutex, JobManager, CacheOnSuccess, exec) and of
the compilation-database service (compdb_service/index.ts: Ebuild).

The asynchronous classes run on a single-threaded event loop; we embed each
one as a deterministic state machine.  A list of commands describes one
interleaving of the externally visible scheduler events:

* for Mutex:      submit (a runExclusive call) and complete (the currently
  running job body finishes with an outcome);
* for JobManager: offer and complete;
* for CacheOnSuccess: call (a getOrThrow invocation) and settle (the single
  in-flight job finishes with an outcome).

Job identifiers are arrival indices (0, 1, 2, ...) so that statements about
submission order become statements about the numeric order of identifiers.
-/

/-! ## Mutex (common_util.ts, class Mutex) -/

/-- Events observable about job bodies: job `j` started executing, or job `j`
finished executing (with either outcome). -/
inductive MEv where
  | start (j : Nat)
  | finish (j : Nat)
deriving DecidableEq, Repr

/-- Scheduler commands driving a Mutex: a new `runExclusive` call arrives, or
the currently running job body completes with outcome `o` (a return value or
a thrown error, `β` is instantiated with an `Except` type for fault claims). -/
inductive MCmd (β : Type) where
  | submit
  | complete (o : β)
deriving DecidableEq, Repr

/-- State of a `Mutex` instance.  `queue` holds arrival indices of enqueued
jobs (the code stores `{job, resolve, reject}` records; the index stands for
the record).  `running` is the job whose body is currently executing
(`this.running` flag plus the shifted task).  `log` records starts and
finishes of job bodies; `settled` records, in order, which job each promise
settlement belongs to and with which outcome (`task.resolve(value)` or
`task.reject(e)`). -/
structure MState (β : Type) where
  queue : List Nat := []
  running : Option Nat := none
  nextId : Nat := 0
  log : List MEv := []
  settled : List (Nat × β) := []
deriving DecidableEq, Repr

/-- The tail of `Mutex.handle`: when nothing is running and the queue is
nonempty, shift the oldest entry and start executing its job body. -/
def mxHandle {β : Type} (s : MState β) : MState β :=
  match s.running with
  | some _ => s
  | none =>
    match s.queue with
    | [] => s
    | j :: rest =>
      { s with queue := rest, running := some j, log := s.log ++ [MEv.start j] }

/-- One scheduler step of the Mutex.  `submit` mirrors `runExclusive`: push a
queue entry, then run `handle`.  `complete o` mirrors the end of
`await task.job()`: settle the promise of the running job with its own
outcome (the `try`/`catch` resolves or rejects with exactly that job result),
then the `finally` clears `running` and calls `handle` again. -/
def mxStep {β : Type} (s : MState β) : MCmd β → MState β
  | MCmd.submit =>
    mxHandle { s with queue := s.queue ++ [s.nextId], nextId := s.nextId + 1 }
  | MCmd.complete o =>
    match s.running with
    | none => s
    | some j =>
      mxHandle { s with running := none,
                        settled := s.settled ++ [(j, o)],
                        log := s.log ++ [MEv.finish j] }

/-- Run a Mutex from its freshly constructed state through a command list. -/
def mxRun {β : Type} (cmds : List (MCmd β)) : MState β :=
  cmds.foldl mxStep {}

/-- The canonical serial log: jobs `0, ..., f-1` each started and finished, in
order, and (when `r` is true) job `f` has started but not yet finished. -/
def logShape (f : Nat) (r : Bool) : List MEv :=
  ((List.range f).flatMap fun i => [MEv.start i, MEv.finish i]) ++
    (if r then [MEv.start f] else [])

/-- Inductive invariant of the Mutex state machine. -/
def MxInv {β : Type} (s : MState β) : Prop :=
  (s.running = none ∧ s.queue = [] ∧ s.log = logShape s.nextId false ∧
      s.settled.map Prod.fst = List.range s.nextId) ∨
  (∃ f, s.running = some f ∧ f < s.nextId ∧ s.log = logShape f true ∧
      s.queue = List.range' (f + 1) (s.nextId - (f + 1)) ∧
      s.settled.map Prod.fst = List.range f)

theorem logShape_finish (f : Nat) :
    logShape f true ++ [MEv.finish f] = logShape (f + 1) false := by
  simp [logShape, List.range_succ]

theorem range'_snoc (a b c : Nat) (h : c = a + b) :
    List.range' a b ++ [c] = List.range' a (b + 1) := by
  rw [@List.range'_concat 1 a b]
  congr 1
  simp
  omega

theorem mxInv_init {β : Type} : MxInv ({} : MState β) := by
  left
  refine ⟨rfl, rfl, ?_, rfl⟩
  simp [logShape]

theorem mxInv_step {β : Type} (s : MState β) (c : MCmd β) (h : MxInv s) :
    MxInv (mxStep s c) := by
  cases c with
  | submit =>
    rcases h with ⟨h1, h2, h3, h4⟩ | ⟨f, h1, h2, h3, h4, h5⟩
    · have hstep : mxStep s MCmd.submit =
          { queue := [], running := some s.nextId, nextId := s.nextId + 1,
            log := s.log ++ [MEv.start s.nextId], settled := s.settled } := by
        simp [mxStep, mxHandle, h1, h2]
      rw [hstep]
      right
      exact ⟨s.nextId, rfl, Nat.lt_succ_self _, by simp [h3, logShape], by simp, h4⟩
    · have hstep : mxStep s MCmd.submit =
          { queue := s.queue ++ [s.nextId], running := some f, nextId := s.nextId + 1,
            log := s.log, settled := s.settled } := by
        simp [mxStep, mxHandle, h1]
      rw [hstep]
      right
      refine ⟨f, rfl, Nat.lt_succ_of_lt h2, h3, ?_, h5⟩
      show s.queue ++ [s.nextId] = List.range' (f + 1) (s.nextId + 1 - (f + 1))
      have he2 : s.nextId + 1 - (f + 1) = (s.nextId - (f + 1)) + 1 := by omega
      rw [h4, he2]
      exact range'_snoc _ _ _ (by omega)
  | complete o =>
    rcases h with ⟨h1, h2, h3, h4⟩ | ⟨f, h1, h2, h3, h4, h5⟩
    · have hstep : mxStep s (MCmd.complete o) = s := by
        simp [mxStep, h1]
      rw [hstep]
      left
      exact ⟨h1, h2, h3, h4⟩
    · by_cases hq : s.nextId = f + 1
      · have hq0 : s.queue = [] := by simp [h4, hq]
        have hstep : mxStep s (MCmd.complete o) =
            { queue := [], running := none, nextId := s.nextId,
              log := s.log ++ [MEv.finish f], settled := s.settled ++ [(f, o)] } := by
          simp [mxStep, h1, mxHandle, hq0]
        rw [hstep]
        left
        refine ⟨rfl, rfl, ?_, ?_⟩
        · simp only [h3, logShape_finish, hq]
        · simp [h5, hq, List.range_succ]
      · have hlt : f + 1 < s.nextId := by omega
        have hq1 : s.queue = (f + 1) :: List.range' (f + 2) (s.nextId - (f + 2)) := by
          rw [h4]
          have he : s.nextId - (f + 1) = (s.nextId - (f + 2)) + 1 := by omega
          rw [he, List.range'_succ]
        have hstep : mxStep s (MCmd.complete o) =
            { queue := List.range' (f + 2) (s.nextId - (f + 2)), running := some (f + 1),
              nextId := s.nextId,
              log := (s.log ++ [MEv.finish f]) ++ [MEv.start (f + 1)],
              settled := s.settled ++ [(f, o)] } := by
          simp [mxStep, h1, mxHandle, hq1]
        rw [hstep]
        right
        refine ⟨f + 1, rfl, hlt, ?_, ?_, ?_⟩
        · simp only [h3, logShape_finish]
          simp [logShape]
        · rfl
        · simp [h5, List.range_succ]

theorem mxRun_inv {β : Type} (cmds : List (MCmd β)) : MxInv (mxRun cmds) := by
  suffices h : ∀ s : MState β, MxInv s → MxInv (cmds.foldl mxStep s) from
    h {} mxInv_init
  induction cmds with
  | nil => intro s hs; exact hs
  | cons c rest ih =>
    intro s hs
    exact ih _ (mxInv_step s c hs)

/-- Arrival indices of the jobs whose bodies started, in the order the bodies
started executing. -/
def startsOf (l : List MEv) : List Nat :=
  l.filterMap fun e => match e with | MEv.start j => some j | MEv.finish _ => none

/-- Arrival indices of the jobs whose bodies ran to completion, in order. -/
def finishesOf (l : List MEv) : List Nat :=
  l.filterMap fun e => match e with | MEv.finish j => some j | MEv.start _ => none

theorem logShape_true_eq (f : Nat) :
    logShape f true = logShape f false ++ [MEv.start f] := by
  simp [logShape]

theorem logShape_succ_false (f : Nat) :
    logShape (f + 1) false = logShape f false ++ [MEv.start f, MEv.finish f] := by
  simp [logShape, List.range_succ]

theorem startsOf_logShape_false (f : Nat) :
    startsOf (logShape f false) = List.range f := by
  induction f with
  | zero => rfl
  | succ n ih =>
    rw [logShape_succ_false, List.range_succ]
    simp [startsOf, List.filterMap_append] at ih ⊢
    exact ih

theorem finishesOf_logShape_false (f : Nat) :
    finishesOf (logShape f false) = List.range f := by
  induction f with
  | zero => rfl
  | succ n ih =>
    rw [logShape_succ_false, List.range_succ]
    simp [finishesOf, List.filterMap_append] at ih ⊢
    exact ih

theorem startsOf_append (a b : List MEv) :
    startsOf (a ++ b) = startsOf a ++ startsOf b :=
  List.filterMap_append _ _ _

theorem finishesOf_append (a b : List MEv) :
    finishesOf (a ++ b) = finishesOf a ++ finishesOf b :=
  List.filterMap_append _ _ _

theorem startsOf_logShape (f : Nat) (r : Bool) :
    startsOf (logShape f r) = List.range (if r then f + 1 else f) := by
  cases r with
  | false => simpa using startsOf_logShape_false f
  | true =>
    show startsOf (logShape f true) = List.range (f + 1)
    rw [logShape_true_eq, startsOf_append, startsOf_logShape_false, List.range_succ]
    rfl

theorem finishesOf_logShape (f : Nat) (r : Bool) :
    finishesOf (logShape f r) = List.range f := by
  cases r with
  | false => simpa using finishesOf_logShape_false f
  | true =>
    rw [logShape_true_eq, finishesOf_append, finishesOf_logShape_false]
    simp [finishesOf]

/-- Outcomes carried by the `complete` commands, in order: the i-th entry is
the outcome of the i-th job body that ran to completion. -/
def outcomesM {β : Type} (cmds : List (MCmd β)) : List β :=
  cmds.filterMap fun c => match c with
    | MCmd.complete o => some o
    | MCmd.submit => none

/-- A command list is well formed for a Mutex when every `complete` command
occurs while a job body is actually running (job bodies of a real execution
only finish after they started). -/
def mwf {β : Type} : MState β → List (MCmd β) → Bool
  | _, [] => true
  | s, c :: rest =>
    (match c with
      | MCmd.complete _ => s.running.isSome
      | MCmd.submit => true) && mwf (mxStep s c) rest

theorem mxHandle_settled {β : Type} (s : MState β) :
    (mxHandle s).settled = s.settled := by
  unfold mxHandle
  cases s.running with
  | some j => rfl
  | none => cases s.queue with
    | nil => rfl
    | cons j rest => rfl

theorem mxRun_settled_outcomes {β : Type} (cmds : List (MCmd β)) (s : MState β)
    (h : mwf s cmds = true) :
    (cmds.foldl mxStep s).settled.map Prod.snd =
      s.settled.map Prod.snd ++ outcomesM cmds := by
  induction cmds generalizing s with
  | nil => simp [outcomesM]
  | cons c rest ih =>
    cases c with
    | submit =>
      have h' : mwf (mxStep s MCmd.submit) rest = true := by
        simpa [mwf] using h
      have hs : (mxStep s MCmd.submit).settled = s.settled := by
        simp [mxStep, mxHandle_settled]
      rw [List.foldl_cons, ih _ h', hs]
      simp [outcomesM]
    | complete o =>
      have hrun : s.running.isSome = true := by
        have := h
        simp [mwf] at this
        exact this.1
      obtain ⟨j, hj⟩ := Option.isSome_iff_exists.mp hrun
      have h' : mwf (mxStep s (MCmd.complete o)) rest = true := by
        simpa [mwf] using (by simpa [mwf] using h : _ ∧ _).2
      have hs : (mxStep s (MCmd.complete o)).settled = s.settled ++ [(j, o)] := by
        simp [mxStep, hj, mxHandle_settled]
      rw [List.foldl_cons, ih _ h', hs]
      simp [outcomesM]

/-- C1 (Mutex serial FIFO execution).  For every interleaving of
`runExclusive` submissions and job-body completions, and for every choice of
job outcomes (success or thrown error), the observable execution log is the
strictly serial FIFO log: job bodies start in exactly the submission order
`0, 1, 2, ...`, the body of job `i` finishes before the body of job `i + 1`
starts (its effects are therefore observable first), and at most one body is
ever between its start and finish events. -/
theorem mutex_runExclusive_serial_fifo {β : Type} (cmds : List (MCmd β)) :
    ∃ f r, (mxRun cmds).log = logShape f r ∧
      (mxRun cmds).running = (if r then some f else none) ∧
      startsOf (mxRun cmds).log = List.range (if r then f + 1 else f) ∧
      finishesOf (mxRun cmds).log = List.range f := by
  rcases mxRun_inv cmds with ⟨h1, _h2, h3, _h4⟩ | ⟨f, h1, _h2, h3, _h4, _h5⟩
  · exact ⟨(mxRun cmds).nextId, false, h3, by simp [h1],
      by rw [h3, startsOf_logShape], by rw [h3, finishesOf_logShape]⟩
  · exact ⟨f, true, h3, by simp [h1],
      by rw [h3, startsOf_logShape], by rw [h3, finishesOf_logShape]⟩

/-! ## JobManager (common_util.ts, class JobManager and class Task) -/

/-- Scheduler commands driving a JobManager: a new `offer` call arrives, or
the currently running task finishes with outcome `o` (`Task.run` resolves
with the return value or rejects with the thrown error). -/
inductive JCmd (β : Type) where
  | offer
  | complete (o : β)
deriving DecidableEq, Repr

/-- State of a `JobManager` instance.  `tasks` holds arrival indices of
queued-but-not-started tasks, `running` the task whose job is executing.
`cancelled` records, in order, the tasks whose promise was resolved with
`null` by `Task.cancel` and whose job never ran; `started` the tasks whose
job bodies started, in start order; `settled` the tasks whose promise was
resolved or rejected by `Task.run` with their own job outcome. -/
structure JMState (β : Type) where
  tasks : List Nat := []
  running : Option Nat := none
  nextId : Nat := 0
  cancelled : List Nat := []
  started : List Nat := []
  settled : List (Nat × β) := []
deriving DecidableEq, Repr

/-- The `while (this.tasks.length > 1) this.tasks.shift()!.cancel();` loop:
every queued task except the most recently offered one is cancelled (its
promise resolves to `null`). -/
def jmCancelOld {β : Type} (s : JMState β) : JMState β :=
  { s with tasks := s.tasks.drop (s.tasks.length - 1),
           cancelled := s.cancelled ++ s.tasks.dropLast }

/-- `JobManager.handle`: cancel all but the newest queued task; if a task is
running, return; otherwise take the single remaining task (`tasks.pop()`,
which on a list of length at most one is its only element) and start running
its job. -/
def jmHandle {β : Type} (s : JMState β) : JMState β :=
  let s1 := jmCancelOld s
  match s1.running with
  | some _ => s1
  | none =>
    match s1.tasks with
    | [] => s1
    | t :: rest =>
      { s1 with tasks := rest, running := some t, started := s1.started ++ [t] }

/-- One scheduler step of the JobManager.  `offer` pushes a fresh task and
calls `handle`.  `complete o` mirrors the return of `await task.run()`: the
task promise settles with its own outcome, `running` is cleared and `handle`
runs again (the `await this.handle()` recursion). -/
def jmStep {β : Type} (s : JMState β) : JCmd β → JMState β
  | JCmd.offer =>
    jmHandle { s with tasks := s.tasks ++ [s.nextId], nextId := s.nextId + 1 }
  | JCmd.complete o =>
    match s.running with
    | none => s
    | some j =>
      jmHandle { s with running := none, settled := s.settled ++ [(j, o)] }

/-- Run a JobManager from its freshly constructed state. -/
def jmRun {β : Type} (cmds : List (JCmd β)) : JMState β :=
  cmds.foldl jmStep {}

/-- Inductive invariant of the JobManager state machine. -/
def JMInv {β : Type} (s : JMState β) : Prop :=
  s.tasks.length ≤ 1 ∧
  (s.running = none → s.tasks = []) ∧
  (∀ j ∈ s.tasks, j < s.nextId ∧ j ∉ s.started ∧ j ∉ s.cancelled ∧ s.running ≠ some j) ∧
  (∀ j ∈ s.cancelled, j < s.nextId ∧ j ∉ s.started) ∧
  (∀ j ∈ s.started, j < s.nextId) ∧
  (∀ j, s.running = some j → j < s.nextId ∧ j ∈ s.started) ∧
  (s.settled.map Prod.fst ++ s.running.toList = s.started)

theorem jmStep_offer_running {β : Type} (s : JMState β) (r : Nat)
    (h : s.running = some r) :
    jmStep s JCmd.offer =
      { tasks := [s.nextId], running := some r, nextId := s.nextId + 1,
        cancelled := s.cancelled ++ s.tasks, started := s.started,
        settled := s.settled } := by
  have hd : (s.tasks ++ [s.nextId]).drop ((s.tasks ++ [s.nextId]).length - 1) =
      [s.nextId] := by
    simp [List.drop_left]
  have hdl : (s.tasks ++ [s.nextId]).dropLast = s.tasks := by
    simp
  simp [jmStep, jmHandle, jmCancelOld, h, hd, hdl]

theorem jmStep_offer_idle {β : Type} (s : JMState β)
    (h : s.running = none) (h2 : s.tasks = []) :
    jmStep s JCmd.offer =
      { tasks := [], running := some s.nextId, nextId := s.nextId + 1,
        cancelled := s.cancelled, started := s.started ++ [s.nextId],
        settled := s.settled } := by
  simp [jmStep, jmHandle, jmCancelOld, h, h2]

theorem jmStep_complete_none {β : Type} (s : JMState β) (o : β)
    (h : s.running = none) : jmStep s (JCmd.complete o) = s := by
  simp [jmStep, h]

theorem jmStep_complete_nil {β : Type} (s : JMState β) (o : β) (j : Nat)
    (h : s.running = some j) (h2 : s.tasks = []) :
    jmStep s (JCmd.complete o) =
      { tasks := [], running := none, nextId := s.nextId,
        cancelled := s.cancelled, started := s.started,
        settled := s.settled ++ [(j, o)] } := by
  simp [jmStep, jmHandle, jmCancelOld, h, h2]

theorem jmStep_complete_one {β : Type} (s : JMState β) (o : β) (j t : Nat)
    (h : s.running = some j) (h2 : s.tasks = [t]) :
    jmStep s (JCmd.complete o) =
      { tasks := [], running := some t, nextId := s.nextId,
        cancelled := s.cancelled, started := s.started ++ [t],
        settled := s.settled ++ [(j, o)] } := by
  simp [jmStep, jmHandle, jmCancelOld, h, h2]

theorem jmInv_init {β : Type} : JMInv ({} : JMState β) := by
  refine ⟨by simp, fun _ => rfl, ?_, ?_, ?_, ?_, rfl⟩ <;> simp

theorem jmInv_step {β : Type} (s : JMState β) (c : JCmd β) (h : JMInv s) :
    JMInv (jmStep s c) := by
  obtain ⟨hlen, hidle, htasks, hcanc, hstart, hrun, hacc⟩ := h
  cases c with
  | offer =>
    cases hr : s.running with
    | some r =>
      rw [jmStep_offer_running s r hr]
      unfold JMInv
      simp only [] 
      refine ⟨by simp, by simp, ?_, ?_, ?_, ?_, ?_⟩
      · intro j hj
        simp at hj
        subst hj
        refine ⟨by omega, ?_, ?_, ?_⟩
        · intro hmem
          exact absurd (hstart _ hmem) (by omega)
        · intro hmem
          simp at hmem
          rcases hmem with hmem | hmem
          · exact absurd (hcanc _ hmem).1 (by omega)
          · exact absurd (htasks _ hmem).1 (by omega)
        · intro heq
          have := (hrun _ hr).1
          simp at heq
          omega
      · intro j hj
        simp at hj
        rcases hj with hj | hj
        · obtain ⟨hj1, hj2⟩ := hcanc _ hj
          exact ⟨by omega, hj2⟩
        · obtain ⟨hj1, hj2, _, _⟩ := htasks _ hj
          exact ⟨by omega, hj2⟩
      · intro j hj
        exact Nat.lt_succ_of_lt (hstart _ hj)
      · intro j hj
        simp at hj
        subst hj
        exact ⟨Nat.lt_succ_of_lt (hrun _ hr).1, (hrun _ hr).2⟩
      · simpa [hr] using hacc
    | none =>
      rw [jmStep_offer_idle s hr (hidle hr)]
      unfold JMInv
      simp only [] 
      refine ⟨by simp, by simp, by simp, ?_, ?_, ?_, ?_⟩
      · intro j hj
        obtain ⟨hj1, hj2⟩ := hcanc _ hj
        refine ⟨by omega, ?_⟩
        simp [hj2]
        omega
      · intro j hj
        simp at hj
        rcases hj with hj | hj
        · exact Nat.lt_succ_of_lt (hstart _ hj)
        · omega
      · intro j hj
        simp at hj
        subst hj
        simp
      · show List.map Prod.fst s.settled ++ [s.nextId] = s.started ++ [s.nextId]
        congr 1
        simpa [hr] using hacc
  | complete o =>
    cases hr : s.running with
    | none =>
      rw [jmStep_complete_none s o hr]
      exact ⟨hlen, hidle, htasks, hcanc, hstart, hrun, hacc⟩
    | some j =>
      cases ht : s.tasks with
      | nil =>
        rw [jmStep_complete_nil s o j hr ht]
        unfold JMInv
        simp only []
        refine ⟨by simp, by simp, by simp, ?_, ?_, by simp, ?_⟩
        · intro i hi
          exact hcanc _ hi
        · intro i hi
          exact hstart _ hi
        · simpa [hr] using hacc
      | cons t rest =>
        have hrest : rest = [] := by
          have := hlen
          rw [ht] at this
          simp at this
          simp [this]
        subst hrest
        rw [jmStep_complete_one s o j t hr ht]
        unfold JMInv
        simp only []
        have htmem : t ∈ s.tasks := by simp [ht]
        obtain ⟨ht1, ht2, ht3, ht4⟩ := htasks _ htmem
        refine ⟨by simp, by simp, by simp, ?_, ?_, ?_, ?_⟩
        · intro i hi
          obtain ⟨hi1, hi2⟩ := hcanc _ hi
          refine ⟨hi1, ?_⟩
          simp [hi2]
          intro he
          subst he
          exact ht3 hi
        · intro i hi
          simp at hi
          rcases hi with hi | hi
          · exact hstart _ hi
          · omega
        · intro i hi
          simp at hi
          subst hi
          simp [ht1]
        · congr 1
          simp only [List.map_append]
          simpa [hr] using hacc

theorem jmRun_inv {β : Type} (cmds : List (JCmd β)) : JMInv (jmRun cmds) := by
  suffices h : ∀ s : JMState β, JMInv s → JMInv (cmds.foldl jmStep s) from
    h {} jmInv_init
  induction cmds with
  | nil => intro s hs; exact hs
  | cons c rest ih =>
    intro s hs
    exact ih _ (jmInv_step s c hs)

/-- C2 (JobManager latest-wins coalescing).  In every reachable state at most
one not-yet-started task is pending (conjunct 1) and no cancelled task ever
started its job body (conjunct 2).  An `offer` cancels exactly the previously
pending tasks, resolving their promises to null (conjunct 3); if a job is
running it keeps running untouched and the fresh task becomes the single
pending one (conjunct 4), otherwise the fresh task starts at once
(conjunct 5).  When the running job completes — with either outcome — its
promise settles with that outcome, nothing is cancelled, and the single
surviving most-recently-offered pending task (if any) is started
(conjunct 6). -/
theorem jobManager_latest_wins {β : Type} (cmds : List (JCmd β)) (o : β) :
    (jmRun cmds).tasks.length ≤ 1 ∧
    (∀ j ∈ (jmRun cmds).cancelled, j ∉ (jmRun cmds).started) ∧
    ((jmRun (cmds ++ [JCmd.offer])).cancelled
        = (jmRun cmds).cancelled ++ (jmRun cmds).tasks) ∧
    ((jmRun cmds).running.isSome = true →
      (jmRun (cmds ++ [JCmd.offer])).running = (jmRun cmds).running ∧
      (jmRun (cmds ++ [JCmd.offer])).started = (jmRun cmds).started ∧
      (jmRun (cmds ++ [JCmd.offer])).tasks = [(jmRun cmds).nextId]) ∧
    ((jmRun cmds).running = none →
      (jmRun (cmds ++ [JCmd.offer])).running = some (jmRun cmds).nextId ∧
      (jmRun (cmds ++ [JCmd.offer])).started
          = (jmRun cmds).started ++ [(jmRun cmds).nextId] ∧
      (jmRun (cmds ++ [JCmd.offer])).tasks = []) ∧
    (∀ j, (jmRun cmds).running = some j →
      (jmRun (cmds ++ [JCmd.complete o])).settled
          = (jmRun cmds).settled ++ [(j, o)] ∧
      (jmRun (cmds ++ [JCmd.complete o])).cancelled = (jmRun cmds).cancelled ∧
      (jmRun (cmds ++ [JCmd.complete o])).running = (jmRun cmds).tasks.head? ∧
      (jmRun (cmds ++ [JCmd.complete o])).started
          = (jmRun cmds).started ++ (jmRun cmds).tasks) := by
  obtain ⟨hlen, hidle, htasks, hcanc, hstart, hrun, hacc⟩ := jmRun_inv cmds
  have happ : ∀ c : JCmd β, jmRun (cmds ++ [c]) = jmStep (jmRun cmds) c := by
    intro c
    simp [jmRun, List.foldl_append]
  refine ⟨hlen, fun j hj => (hcanc j hj).2, ?_, ?_, ?_, ?_⟩
  · rw [happ]
    cases hr : (jmRun cmds).running with
    | some r => rw [jmStep_offer_running _ r hr]
    | none =>
      rw [jmStep_offer_idle _ hr (hidle hr)]
      simp [hidle hr]
  · intro hr
    obtain ⟨r, hr⟩ := Option.isSome_iff_exists.mp hr
    rw [happ, jmStep_offer_running _ r hr]
    exact ⟨hr.symm, rfl, rfl⟩
  · intro hr
    rw [happ, jmStep_offer_idle _ hr (hidle hr)]
    exact ⟨rfl, rfl, rfl⟩
  · intro j hr
    cases ht : (jmRun cmds).tasks with
    | nil =>
      rw [happ, jmStep_complete_nil _ o j hr ht]
      simp
    | cons t rest =>
      have hrest : rest = [] := by
        rw [ht] at hlen
        simp at hlen
        simp [hlen]
      subst hrest
      rw [happ, jmStep_complete_one _ o j t hr ht]
      simp

/-- Witness for C2 at a concrete run: two offers while the first job still
runs, then completion of the running job. -/
theorem jobManager_latest_wins_witness :
    (jmRun (([JCmd.offer] : List (JCmd Nat)) ++ [JCmd.offer])).tasks = [1] ∧
    (jmRun ([JCmd.offer] ++ [JCmd.complete (37 : Nat)])).settled = [(0, 37)] := by
  have h := jobManager_latest_wins [JCmd.offer] (37 : Nat)
  constructor
  · exact (h.2.2.2.1 (by decide)).2.2
  · exact ((h.2.2.2.2.2 0 (by decide)).1).trans (by decide)

/-- Outcomes carried by the `complete` commands of a JobManager run. -/
def outcomesJ {β : Type} (cmds : List (JCmd β)) : List β :=
  cmds.filterMap fun c => match c with
    | JCmd.complete o => some o
    | JCmd.offer => none

/-- Well-formed JobManager command lists: a task only completes while one is
actually running. -/
def jwf {β : Type} : JMState β → List (JCmd β) → Bool
  | _, [] => true
  | s, c :: rest =>
    (match c with
      | JCmd.complete _ => s.running.isSome
      | JCmd.offer => true) && jwf (jmStep s c) rest

theorem jmCancelOld_settled {β : Type} (s : JMState β) :
    (jmCancelOld s).settled = s.settled := rfl

theorem jmHandle_settled {β : Type} (s : JMState β) :
    (jmHandle s).settled = s.settled := by
  unfold jmHandle
  cases hr : (jmCancelOld s).running with
  | some j =>
    simp only [hr]
    exact jmCancelOld_settled s
  | none =>
    simp only [hr]
    cases ht : (jmCancelOld s).tasks with
    | nil =>
      simp only [ht]
      exact jmCancelOld_settled s
    | cons t rest =>
      simp only [ht]
      exact jmCancelOld_settled s

theorem jmRun_settled_outcomes {β : Type} (cmds : List (JCmd β)) (s : JMState β)
    (h : jwf s cmds = true) :
    (cmds.foldl jmStep s).settled.map Prod.snd =
      s.settled.map Prod.snd ++ outcomesJ cmds := by
  induction cmds generalizing s with
  | nil => simp [outcomesJ]
  | cons c rest ih =>
    cases c with
    | offer =>
      have h' : jwf (jmStep s JCmd.offer) rest = true := by
        simpa [jwf] using h
      have hs : (jmStep s JCmd.offer).settled = s.settled := by
        simp [jmStep, jmHandle_settled]
      rw [List.foldl_cons, ih _ h', hs]
      simp [outcomesJ]
    | complete o =>
      have hrun : s.running.isSome = true := by
        have h2 := h
        simp [jwf] at h2
        exact h2.1
      obtain ⟨j, hj⟩ := Option.isSome_iff_exists.mp hrun
      have h' : jwf (jmStep s (JCmd.complete o)) rest = true := by
        simpa [jwf] using (by simpa [jwf] using h : _ ∧ _).2
      have hs : (jmStep s (JCmd.complete o)).settled = s.settled ++ [(j, o)] := by
        simp [jmStep, hj, jmHandle_settled]
      rw [List.foldl_cons, ih _ h', hs]
      simp [outcomesJ]

/-- C3 (fault isolation of the coordination primitives).  For any outcome
type — in particular `β = Except E T`, where `Except.error e` is a promise
rejected with the thrown error `e` — every well-formed run satisfies: each
Mutex job promise settles exactly once, with exactly the outcome of its own
job body (jobs `0, 1, ...` settle in order, pairing job `i` with the i-th
completion outcome), and the execution log keeps its serial shape whatever
the outcomes are, so after a thrown error the runner still starts the next
queued entry.  Likewise each started JobManager task settles exactly once
with its own outcome (settled tasks followed by the currently running one
are exactly the started tasks), and cancelled tasks never ran at all. -/
theorem coordination_fault_isolation {β : Type} (mc : List (MCmd β))
    (jc : List (JCmd β)) (hm : mwf {} mc = true) (hj : jwf {} jc = true) :
    ((mxRun mc).settled.map Prod.snd = outcomesM mc ∧
     (mxRun mc).settled.map Prod.fst = List.range (outcomesM mc).length ∧
     (∃ f r, (mxRun mc).log = logShape f r)) ∧
    ((jmRun jc).settled.map Prod.snd = outcomesJ jc ∧
     (jmRun jc).settled.map Prod.fst ++ (jmRun jc).running.toList
         = (jmRun jc).started ∧
     (∀ j ∈ (jmRun jc).cancelled, j ∉ (jmRun jc).started)) := by
  have hms : (mxRun mc).settled.map Prod.snd = outcomesM mc := by
    simpa using mxRun_settled_outcomes mc {} hm
  have hfst : ∃ n, (mxRun mc).settled.map Prod.fst = List.range n := by
    rcases mxRun_inv mc with ⟨_, _, _, h4⟩ | ⟨f, _, _, _, _, h5⟩
    · exact ⟨_, h4⟩
    · exact ⟨f, h5⟩
  obtain ⟨n, hn⟩ := hfst
  have hlen : n = (outcomesM mc).length := by
    have h1 : ((mxRun mc).settled.map Prod.fst).length = n := by
      rw [hn]; simp
    have h2 : ((mxRun mc).settled.map Prod.snd).length = (outcomesM mc).length := by
      rw [hms]
    simp at h1 h2
    omega
  have hjs : (jmRun jc).settled.map Prod.snd = outcomesJ jc := by
    simpa using jmRun_settled_outcomes jc {} hj
  obtain ⟨_, _, _, hcanc, _, _, hacc⟩ := jmRun_inv jc
  refine ⟨⟨hms, by rw [hn, hlen], ?_⟩, hjs, hacc, fun j hjm => (hcanc j hjm).2⟩
  rcases mxRun_inv mc with ⟨_, _, h3, _⟩ | ⟨f, _, _, h3, _, _⟩
  · exact ⟨_, false, h3⟩
  · exact ⟨f, true, h3⟩

/-- Witness for C3: two Mutex jobs where the first throws and the second
succeeds, and a JobManager task that throws. -/
theorem coordination_fault_isolation_witness :
    (mxRun [MCmd.submit, MCmd.submit,
        MCmd.complete (Except.error 5 : Except Nat Nat),
        MCmd.complete (Except.ok 7)]).settled.map Prod.snd
      = outcomesM [MCmd.submit, MCmd.submit,
        MCmd.complete (Except.error 5 : Except Nat Nat),
        MCmd.complete (Except.ok 7)] ∧
    (jmRun [JCmd.offer,
        JCmd.complete (Except.error 3 : Except Nat Nat)]).settled.map Prod.snd
      = outcomesJ [JCmd.offer, JCmd.complete (Except.error 3 : Except Nat Nat)] := by
  have h := coordination_fault_isolation
    [MCmd.submit, MCmd.submit, MCmd.complete (Except.error 5 : Except Nat Nat),
      MCmd.complete (Except.ok 7)]
    [JCmd.offer, JCmd.complete (Except.error 3 : Except Nat Nat)]
    (by decide) (by decide)
  exact ⟨h.1.1, h.2.1⟩

/-! ## CacheOnSuccess (common_util.ts, class CacheOnSuccess) -/

/-- State of a `CacheOnSuccess` cell.  `value` is `this.value`; the promise
field is split into its two observable states: `resolved = some v` is a
promise already fulfilled with `v`, and `inflight = some k` is a pending
promise currently awaited by `k` callers.  `invocations` counts how many
times the underlying job was invoked; `responses` records, in settlement
order, the result delivered to each caller (`Except.error e` is a rejection
with the thrown error). -/
structure CState (α ε : Type) where
  value : Option α := none
  resolved : Option α := none
  inflight : Option Nat := none
  invocations : Nat := 0
  responses : List (Except ε α) := []

/-- Scheduler commands driving a cell: a `getOrThrow` call arrives, or the
single in-flight job settles with outcome `o`. -/
inductive CCmd (α ε : Type) where
  | call
  | settle (o : Except ε α)

/-- One `getOrThrow` call, mirroring the source line by line for a JavaScript
truthiness predicate `truthy`: `if (this.value) return this.value;` (only a
truthy cached value returns here), then `if (this.promise) return
this.promise;` (a fulfilled promise answers immediately, a pending one gains
an awaiter), otherwise `this.promise = this.job()` starts one new invocation
awaited by this caller. -/
def cacheCall {α ε : Type} (truthy : α → Bool) (s : CState α ε) : CState α ε :=
  match s.value with
  | some v =>
    if truthy v then { s with responses := s.responses ++ [Except.ok v] }
    else cacheCallPromise s
  | none => cacheCallPromise s
where
  /-- The `if (this.promise)` fallthrough of `getOrThrow`. -/
  cacheCallPromise (s : CState α ε) : CState α ε :=
    match s.resolved with
    | some p => { s with responses := s.responses ++ [Except.ok p] }
    | none =>
      match s.inflight with
      | some k => { s with inflight := some (k + 1) }
      | none => { s with inflight := some 1, invocations := s.invocations + 1 }

/-- The in-flight job settles.  On success every awaiter receives the value,
and both `this.value` and the fulfilled `this.promise` are kept.  On failure
the `catch` clause clears both fields and every awaiter of this attempt
receives the rejection. -/
def cacheSettle {α ε : Type} (s : CState α ε) (o : Except ε α) : CState α ε :=
  match s.inflight with
  | none => s
  | some k =>
    match o with
    | Except.ok v =>
      { s with value := some v, resolved := some v, inflight := none,
               responses := s.responses ++ List.replicate k (Except.ok v) }
    | Except.error e =>
      { s with value := none, resolved := none, inflight := none,
               responses := s.responses ++ List.replicate k (Except.error e) }

def cacheStep {α ε : Type} (truthy : α → Bool) (s : CState α ε) :
    CCmd α ε → CState α ε
  | CCmd.call => cacheCall truthy s
  | CCmd.settle o => cacheSettle s o

/-- Run a cell from its freshly constructed (empty) state. -/
def cacheRun {α ε : Type} (truthy : α → Bool) (cmds : List (CCmd α ε)) :
    CState α ε :=
  cmds.foldl (cacheStep truthy) {}

/-- JavaScript truthiness on numbers: `0` is falsy. -/
def jsTruthyNat (n : Nat) : Bool := n != 0

/-- C6 (CacheOnSuccess memoization and retry-on-failure).  Conjunct 1: once
`value` and the fulfilled promise hold `v`, a `getOrThrow` answers `v` and
changes nothing else — whatever the truthiness of `v` — so the job is never
re-invoked after a success.  Conjunct 2: on an empty cell a call starts
exactly one new job invocation.  Conjunct 3: a job that throws once and then
succeeds is invoked exactly twice across three sequential calls, the first
caller receiving the rejection and the next two the value.  Conjunct 4: a
failure is propagated to every caller awaiting that attempt and clears both
the cached value and the in-flight promise. -/
theorem cacheOnSuccess_memoize_retry {α ε : Type} (truthy : α → Bool)
    (s : CState α ε) (v : α) (e0 : ε) (w : α)
    (hv : s.value = some v) (hr : s.resolved = some v) :
    cacheCall truthy s = { s with responses := s.responses ++ [Except.ok v] } ∧
    (∀ t : CState α ε, t.value = none → t.resolved = none → t.inflight = none →
      cacheCall truthy t =
        { t with inflight := some 1, invocations := t.invocations + 1 }) ∧
    cacheRun truthy [CCmd.call, CCmd.settle (Except.error e0), CCmd.call,
        CCmd.settle (Except.ok w), CCmd.call] =
      { value := some w, resolved := some w, inflight := none, invocations := 2,
        responses := [Except.error e0, Except.ok w, Except.ok w] } ∧
    cacheRun truthy [CCmd.call, CCmd.call, CCmd.settle (Except.error e0)] =
      ({ value := none, resolved := none, inflight := none, invocations := 1,
         responses := [Except.error e0, Except.error e0] } : CState α ε) := by
  refine ⟨?_, ?_, ?_, ?_⟩
  · unfold cacheCall
    rw [hv]
    cases htv : truthy v with
    | true => simp [htv]
    | false =>
      simp only [htv, Bool.false_eq_true, if_false]
      unfold cacheCall.cacheCallPromise
      rw [hr]
      simp [hv]
  · intro t h1 h2 h3
    unfold cacheCall cacheCall.cacheCallPromise
    rw [h1, h2, h3]
  · cases htw : truthy w with
    | true =>
      simp [cacheRun, cacheStep, cacheCall, cacheCall.cacheCallPromise,
        cacheSettle, htw]
    | false =>
      simp [cacheRun, cacheStep, cacheCall, cacheCall.cacheCallPromise,
        cacheSettle, htw]
  · rfl

/-- Witness for C6: a cell over natural numbers with JavaScript truthiness,
run through the fail-then-succeed scenario. -/
theorem cacheOnSuccess_memoize_retry_witness :
    cacheRun jsTruthyNat [CCmd.call, CCmd.settle (Except.error 9), CCmd.call,
        CCmd.settle (Except.ok 3), CCmd.call] =
      ({ value := some 3, resolved := some 3, inflight := none, invocations := 2,
         responses := [Except.error 9, Except.ok 3, Except.ok 3] } :
          CState Nat Nat) :=
  (cacheOnSuccess_memoize_retry jsTruthyNat
    ({ value := some 1, resolved := some 1 } : CState Nat Nat) 1 9 3
    rfl rfl).2.2.1

/-- C10 (implicit: CacheOnSuccess memoizes falsy values too).  If the job
succeeds with a value whose JavaScript truthiness is false, a later call
misses the `if (this.value)` check but still answers from the retained
fulfilled promise, with exactly one invocation in total. -/
theorem cacheOnSuccess_falsy_value {α ε : Type} (truthy : α → Bool) (v : α)
    (hv : truthy v = false) :
    cacheRun truthy
        ([CCmd.call, CCmd.settle (Except.ok v), CCmd.call] : List (CCmd α ε)) =
      { value := some v, resolved := some v, inflight := none, invocations := 1,
        responses := [Except.ok v, Except.ok v] } := by
  simp [cacheRun, cacheStep, cacheCall, cacheCall.cacheCallPromise,
    cacheSettle, hv]

/-- Witness for C10: the falsy value `0` is cached and the job runs once. -/
theorem cacheOnSuccess_falsy_value_witness :
    cacheRun jsTruthyNat
        ([CCmd.call, CCmd.settle (Except.ok 0), CCmd.call] :
          List (CCmd Nat Nat)) =
      { value := some 0, resolved := some 0, inflight := none, invocations := 1,
        responses := [Except.ok 0, Except.ok 0] } :=
  cacheOnSuccess_falsy_value jsTruthyNat 0 rfl

/-! ## Process executor (common_util.ts, realExec / exec / execOrThrow) -/

/-- Modelled from the spec: `shutil.escapeArray` (file shutil.ts is not under
src/).  The spec only requires a formatted shell-escaped command string; the
per-word escaping is irrelevant to every claim, so the model joins the
command words with spaces. -/
def escapeArray (xs : List String) : String :=
  String.intercalate " " xs

/-- JavaScript string interpolation of `exitStatus : number | null`. -/
def jsShowStatus : Option Int → String
  | none => "null"
  | some n => toString n

/-- Message of `AbnormalExitError`. -/
def abnormalMsg (name : String) (args : List String) (st : Option Int) : String :=
  "\"" ++ escapeArray (name :: args) ++ "\" failed, exit status: "
    ++ jsShowStatus st

/-- Message of `ProcessError` (`cause` is the message of the OS error). -/
def processMsg (name : String) (args : List String) (cause : String) : String :=
  "\"" ++ escapeArray (name :: args) ++ "\" failed: " ++ cause

/-- Message of `CancelledError`. -/
def cancelledMsg (name : String) (args : List String) : String :=
  "\"" ++ escapeArray (name :: args) ++ "\" cancelled"

/-- The `ExecResult` interface: exit status (null when killed by a signal)
and the captured output streams. -/
structure ExecResult where
  exitStatus : Option Int
  stdout : String
  stderr : String
deriving DecidableEq, Repr

/-- The error objects `realExec` can resolve with. -/
inductive ExecError where
  | abnormalExit (message : String) (exitStatus : Option Int)
      (stdout stderr : String)
  | processError (message : String)
  | cancelled (message : String)
deriving DecidableEq, Repr

/-- The fields of `ExecOptions` that influence the modelled behaviour. -/
structure ExecOpts where
  logger : Bool := false
  logStdout : Bool := false
  ignoreNonZeroExit : Bool := false
deriving DecidableEq, Repr

/-- The JavaScript variable `lastChar`: initially the empty string, then
`data[data.length - 1]` of the last logged chunk — which is `undefined` when
that chunk was empty. -/
inductive LastChar where
  | empty
  | undef
  | chr (c : Char)
deriving DecidableEq, Repr

def lastCharOf (s : String) : LastChar :=
  match s.data.getLast? with
  | none => LastChar.undef
  | some c => LastChar.chr c

/-- The `lastChar !== '' && lastChar !== '\n'` test guarding the flush. -/
def needsNewline : LastChar → Bool
  | LastChar.empty => false
  | LastChar.undef => true
  | LastChar.chr c => c != '\n'

/-- Events delivered to the listeners `realExec` registers: stdout and
stderr `data` chunks, the `close` event with the exit status, the `error`
event (spawn failure, carrying the OS error message), and a cancellation
request from the cancellation token. -/
inductive ExecEvent where
  | stdoutData (s : String)
  | stderrData (s : String)
  | close (st : Option Int)
  | spawnErr (msg : String)
  | cancel
deriving DecidableEq, Repr

/-- Mutable state of one `realExec` promise executor: the accumulating
`stdout`/`stderr` capture strings, `lastChar`, the chunks passed to
`options.logger.append` so far (in order), and the resolution of the
promise, if any (a promise resolves at most once; later `resolve` calls are
ignored). -/
structure ExecState where
  stdout : String := ""
  stderr : String := ""
  lastChar : LastChar := LastChar.empty
  log : List String := []
  result : Option (ExecResult ⊕ ExecError) := none
deriving DecidableEq, Repr

/-- A promise resolves only once: the first `resolve` wins. -/
def resolveOnce (s : ExecState) (r : ExecResult ⊕ ExecError) : ExecState :=
  match s.result with
  | some _ => s
  | none => { s with result := some r }

/-- The `if (options.logger && lastChar !== '' && lastChar !== '\n')
options.logger.append('\n');` flush at the start of the close and error
listeners. -/
def flushNewline (opts : ExecOpts) (s : ExecState) : ExecState :=
  if opts.logger && needsNewline s.lastChar then
    { s with log := s.log ++ ["\n"] }
  else s

/-- Initial state of `realExec`: if a logger is provided the shell-escaped
command line, newline-terminated, is appended before anything else. -/
def execInit (name : String) (args : List String) (opts : ExecOpts) : ExecState :=
  { log := if opts.logger then [escapeArray (name :: args) ++ "\n"] else [] }

/-- One listener firing, mirroring `realExec` line by line.  In the close
listener the non-zero-exit branch resolves with `AbnormalExitError` and then
— the source has no early return — `resolve({exitStatus, stdout, stderr})`
runs as well, a no-op when the promise already resolved.  The cancel path
resolves with `CancelledError` both with and without tree-kill. -/
def execStep (name : String) (args : List String) (opts : ExecOpts)
    (s : ExecState) : ExecEvent → ExecState
  | ExecEvent.stdoutData d =>
    let s1 := if opts.logger && opts.logStdout then
        { s with log := s.log ++ [d], lastChar := lastCharOf d }
      else s
    { s1 with stdout := s1.stdout ++ d }
  | ExecEvent.stderrData d =>
    let s1 := if opts.logger then
        { s with log := s.log ++ [d], lastChar := lastCharOf d }
      else s
    { s1 with stderr := s1.stderr ++ d }
  | ExecEvent.close st =>
    let s1 := flushNewline opts s
    let s2 := if !opts.ignoreNonZeroExit && st != some 0 then
        resolveOnce s1 (Sum.inr (ExecError.abnormalExit
          (abnormalMsg name args st) st s1.stdout s1.stderr))
      else s1
    resolveOnce s2 (Sum.inl ⟨st, s2.stdout, s2.stderr⟩)
  | ExecEvent.spawnErr msg =>
    let s1 := flushNewline opts s
    resolveOnce s1 (Sum.inr (ExecError.processError (processMsg name args msg)))
  | ExecEvent.cancel =>
    resolveOnce s (Sum.inr (ExecError.cancelled (cancelledMsg name args)))

/-- One full `realExec` promise execution over a list of listener events. -/
def processExec (name : String) (args : List String) (opts : ExecOpts)
    (events : List ExecEvent) : ExecState :=
  events.foldl (execStep name args opts) (execInit name args opts)

/-- `execOrThrow`: await `exec`; if the result is an `Error`, throw it,
otherwise return it. -/
def execOrThrow (r : ExecResult ⊕ ExecError) : Except ExecError ExecResult :=
  match r with
  | Sum.inl v => Except.ok v
  | Sum.inr e => Except.error e

/-- Events a process that spawns successfully delivers before `close`. -/
def dataOnly (events : List ExecEvent) : Bool :=
  events.all fun ev => match ev with
    | ExecEvent.stdoutData _ => true
    | ExecEvent.stderrData _ => true
    | _ => false

/-- Concatenation of the stdout data chunks. -/
def capturedOut : List ExecEvent → String
  | [] => ""
  | ev :: rest =>
    (match ev with
      | ExecEvent.stdoutData d => d
      | _ => "") ++ capturedOut rest

/-- Concatenation of the stderr data chunks. -/
def capturedErr : List ExecEvent → String
  | [] => ""
  | ev :: rest =>
    (match ev with
      | ExecEvent.stderrData d => d
      | _ => "") ++ capturedErr rest

theorem execFold_dataOnly (name : String) (args : List String)
    (opts : ExecOpts) (es : List ExecEvent) (s : ExecState)
    (h : dataOnly es = true) :
    (es.foldl (execStep name args opts) s).result = s.result ∧
    (es.foldl (execStep name args opts) s).stdout = s.stdout ++ capturedOut es ∧
    (es.foldl (execStep name args opts) s).stderr = s.stderr ++ capturedErr es := by
  induction es generalizing s with
  | nil => simp [capturedOut, capturedErr]
  | cons e rest ih =>
    cases e with
    | stdoutData d =>
      have h' : dataOnly rest = true := by simpa [dataOnly] using h
      by_cases hb : (opts.logger && opts.logStdout) = true
      · have hstep : execStep name args opts s (ExecEvent.stdoutData d) =
            { s with log := s.log ++ [d], lastChar := lastCharOf d,
                     stdout := s.stdout ++ d } := by
          simp [execStep, hb]
        rw [List.foldl_cons, hstep]
        refine ⟨(ih _ h').1, ?_, ?_⟩
        · rw [(ih _ h').2.1]
          show (s.stdout ++ d) ++ capturedOut rest = _
          simp [capturedOut, String.append_assoc]
        · rw [(ih _ h').2.2]
          show s.stderr ++ capturedErr rest = _
          simp [capturedErr]
      · have hstep : execStep name args opts s (ExecEvent.stdoutData d) =
            { s with stdout := s.stdout ++ d } := by
          simp [execStep, hb]
        rw [List.foldl_cons, hstep]
        refine ⟨(ih _ h').1, ?_, ?_⟩
        · rw [(ih _ h').2.1]
          show (s.stdout ++ d) ++ capturedOut rest = _
          simp [capturedOut, String.append_assoc]
        · rw [(ih _ h').2.2]
          show s.stderr ++ capturedErr rest = _
          simp [capturedErr]
    | stderrData d =>
      have h' : dataOnly rest = true := by simpa [dataOnly] using h
      by_cases hb : opts.logger = true
      · have hstep : execStep name args opts s (ExecEvent.stderrData d) =
            { s with log := s.log ++ [d], lastChar := lastCharOf d,
                     stderr := s.stderr ++ d } := by
          simp [execStep, hb]
        rw [List.foldl_cons, hstep]
        refine ⟨(ih _ h').1, ?_, ?_⟩
        · rw [(ih _ h').2.1]
          show s.stdout ++ capturedOut rest = _
          simp [capturedOut]
        · rw [(ih _ h').2.2]
          show (s.stderr ++ d) ++ capturedErr rest = _
          simp [capturedErr, String.append_assoc]
      · have hstep : execStep name args opts s (ExecEvent.stderrData d) =
            { s with stderr := s.stderr ++ d } := by
          simp [execStep, hb]
        rw [List.foldl_cons, hstep]
        refine ⟨(ih _ h').1, ?_, ?_⟩
        · rw [(ih _ h').2.1]
          show s.stdout ++ capturedOut rest = _
          simp [capturedOut]
        · rw [(ih _ h').2.2]
          show (s.stderr ++ d) ++ capturedErr rest = _
          simp [capturedErr, String.append_assoc]
    | close st => simp [dataOnly] at h
    | spawnErr msg => simp [dataOnly] at h
    | cancel => simp [dataOnly] at h

theorem flushNewline_result (opts : ExecOpts) (t : ExecState) :
    (flushNewline opts t).result = t.result := by
  unfold flushNewline
  split <;> rfl

theorem flushNewline_stdout (opts : ExecOpts) (t : ExecState) :
    (flushNewline opts t).stdout = t.stdout := by
  unfold flushNewline
  split <;> rfl

theorem flushNewline_stderr (opts : ExecOpts) (t : ExecState) :
    (flushNewline opts t).stderr = t.stderr := by
  unfold flushNewline
  split <;> rfl

theorem execStep_close_result (name : String) (args : List String)
    (opts : ExecOpts) (t : ExecState) (st : Option Int) (ht : t.result = none) :
    (execStep name args opts t (ExecEvent.close st)).result =
      (if !opts.ignoreNonZeroExit && st != some 0 then
        some (Sum.inr (ExecError.abnormalExit (abnormalMsg name args st) st
          t.stdout t.stderr))
      else some (Sum.inl ⟨st, t.stdout, t.stderr⟩)) := by
  have h1 : (flushNewline opts t).result = none := by
    rw [flushNewline_result, ht]
  by_cases hc : (!opts.ignoreNonZeroExit && st != some 0) = true
  · simp only [execStep, hc, if_true, resolveOnce, h1, flushNewline_stdout,
      flushNewline_stderr]
  · simp only [execStep, hc, if_false, Bool.not_eq_true] at *
    simp only [execStep, hc, resolveOnce, h1, flushNewline_stdout,
      flushNewline_stderr, if_false, Bool.false_eq_true]

/-- C4 (exec result contract).  A run of the `realExec` promise over any
stream of data chunks ending in process close always resolves — with a value
that is either an `ExecResult` or an `Error` object, never a thrown
exception (conjunct 1).  If the exit status is not `0` (including the null
status of a signal-killed process) and `ignoreNonZeroExit` is not set, the
resolution is an `AbnormalExitError` carrying the exit status, the captured
stdout and stderr, and the shell-escaped command string (conjunct 2);
otherwise it is the `{exitStatus, stdout, stderr}` record with whatever exit
status occurred (conjunct 3).  `execOrThrow` returns the `ExecResult`, or
throws exactly the `Error` that `exec` resolved with (conjunct 4). -/
theorem exec_result_contract (name : String) (args : List String)
    (opts : ExecOpts) (es : List ExecEvent) (st : Option Int)
    (hdata : dataOnly es = true) :
    ((processExec name args opts (es ++ [ExecEvent.close st])).result).isSome
        = true ∧
    (opts.ignoreNonZeroExit = false → st ≠ some 0 →
      (processExec name args opts (es ++ [ExecEvent.close st])).result =
        some (Sum.inr (ExecError.abnormalExit (abnormalMsg name args st) st
          (capturedOut es) (capturedErr es)))) ∧
    (opts.ignoreNonZeroExit = true ∨ st = some 0 →
      (processExec name args opts (es ++ [ExecEvent.close st])).result =
        some (Sum.inl ⟨st, capturedOut es, capturedErr es⟩)) ∧
    (∀ (r : ExecResult ⊕ ExecError) (v : ExecResult) (e : ExecError),
      (execOrThrow r = Except.ok v ↔ r = Sum.inl v) ∧
      (execOrThrow r = Except.error e ↔ r = Sum.inr e)) := by
  obtain ⟨hr, ho, he⟩ :=
    execFold_dataOnly name args opts es (execInit name args opts) hdata
  have happ : processExec name args opts (es ++ [ExecEvent.close st]) =
      execStep name args opts
        (es.foldl (execStep name args opts) (execInit name args opts))
        (ExecEvent.close st) := by
    simp [processExec, List.foldl_append]
  have hrN : (es.foldl (execStep name args opts)
      (execInit name args opts)).result = none := by
    rw [hr]
    rfl
  have hoN : (es.foldl (execStep name args opts)
      (execInit name args opts)).stdout = capturedOut es := by
    rw [ho]
    show "" ++ capturedOut es = capturedOut es
    simp
  have heN : (es.foldl (execStep name args opts)
      (execInit name args opts)).stderr = capturedErr es := by
    rw [he]
    show "" ++ capturedErr es = capturedErr es
    simp
  have hres := execStep_close_result name args opts
    (es.foldl (execStep name args opts) (execInit name args opts)) st hrN
  rw [hoN, heN] at hres
  refine ⟨?_, ?_, ?_, ?_⟩
  · rw [happ, hres]
    split <;> rfl
  · intro hig hne
    rw [happ, hres, hig]
    have : (st != some 0) = true := bne_iff_ne.mpr hne
    simp [this]
  · intro hor
    rw [happ, hres]
    rcases hor with hig | hst
    · simp [hig]
    · simp [hst]
  · intro r v e
    cases r <;> simp [execOrThrow]

/-- Witness for C4: `git status` exiting with status 2 after printing `hi`
resolves with an abnormal-exit error. -/
theorem exec_result_contract_witness :
    (processExec "git" ["status"] {}
        ([ExecEvent.stdoutData "hi"] ++ [ExecEvent.close (some 2)])).result =
      some (Sum.inr (ExecError.abnormalExit
        (abnormalMsg "git" ["status"] (some 2)) (some 2)
        (capturedOut [ExecEvent.stdoutData "hi"])
        (capturedErr [ExecEvent.stdoutData "hi"]))) :=
  (exec_result_contract "git" ["status"] {} [ExecEvent.stdoutData "hi"]
    (some 2) rfl).2.1 rfl (by decide)

/-- True exactly when the string is nonempty and its last character is a
newline. -/
def endsInNewline (s : String) : Bool :=
  match s.data.getLast? with
  | some c => c == '\n'
  | none => false

/-- Concatenation of everything passed to `options.logger.append`. -/
def logText : List String → String
  | [] => ""
  | x :: rest => x ++ logText rest

theorem logText_append (a b : List String) :
    logText (a ++ b) = logText a ++ logText b := by
  induction a with
  | nil => simp [logText]
  | cons x rest ih => simp [logText, ih, String.append_assoc]

theorem endsInNewline_append (a b : String) (h : endsInNewline b = true) :
    endsInNewline (a ++ b) = true := by
  unfold endsInNewline at *
  rcases hb : b.data.getLast? with _ | c
  · rw [hb] at h
    exact absurd h (by simp)
  · rw [hb] at h
    simp at h
    simp [String.data_append, List.getLast?_append, hb, h]

/-- The cumulative logged text ends in a newline whenever the last logged
chunk did, or nothing was logged since the initial newline-terminated
command line. -/
def LogOk (s : ExecState) : Prop :=
  (s.lastChar = LastChar.empty ∨ s.lastChar = LastChar.chr '\n') →
    endsInNewline (logText s.log) = true

theorem logOk_init (name : String) (args : List String) (opts : ExecOpts)
    (hlog : opts.logger = true) : LogOk (execInit name args opts) := by
  intro _
  have h0 : (execInit name args opts).log = [escapeArray (name :: args) ++ "\n"] := by
    simp [execInit, hlog]
  rw [h0]
  have h1 : logText [escapeArray (name :: args) ++ "\n"]
      = escapeArray (name :: args) ++ "\n" := by
    simp [logText]
  rw [h1]
  exact endsInNewline_append _ _ (by decide)

theorem resolveOnce_log (t : ExecState) (r : ExecResult ⊕ ExecError) :
    (resolveOnce t r).log = t.log := by
  unfold resolveOnce
  split <;> rfl

theorem resolveOnce_lastChar (t : ExecState) (r : ExecResult ⊕ ExecError) :
    (resolveOnce t r).lastChar = t.lastChar := by
  unfold resolveOnce
  split <;> rfl

theorem flushNewline_lastChar (opts : ExecOpts) (t : ExecState) :
    (flushNewline opts t).lastChar = t.lastChar := by
  unfold flushNewline
  split <;> rfl

theorem endsInNewline_single (d : String) (h : d.data.getLast? = some '\n') :
    endsInNewline (logText [d]) = true := by
  have h1 : logText [d] = d := by simp [logText]
  rw [h1]
  unfold endsInNewline
  rw [h]
  rfl

theorem logOk_step (name : String) (args : List String) (opts : ExecOpts)
    (s : ExecState) (h : LogOk s) (e : ExecEvent) :
    LogOk (execStep name args opts s e) := by
  cases e with
  | stdoutData d =>
    by_cases hb : (opts.logger && opts.logStdout) = true
    · have hstep : execStep name args opts s (ExecEvent.stdoutData d) =
          { s with log := s.log ++ [d], lastChar := lastCharOf d,
                   stdout := s.stdout ++ d } := by
        simp [execStep, hb]
      rw [hstep]
      intro hante
      show endsInNewline (logText (s.log ++ [d])) = true
      cases hlc : lastCharOf d with
      | empty =>
        exact absurd hlc (by unfold lastCharOf; split <;> simp)
      | undef =>
        simp only [] at hante
        rw [hlc] at hante
        rcases hante with h1 | h1 <;> exact absurd h1 (by simp)
      | chr c =>
        simp only [] at hante
        rw [hlc] at hante
        rcases hante with h1 | h1
        · exact absurd h1 (by simp)
        · have hc : c = '\n' := by
            simpa using h1
          have hd : d.data.getLast? = some '\n' := by
            unfold lastCharOf at hlc
            rcases hg : d.data.getLast? with _ | c2 <;> rw [hg] at hlc
            · exact absurd hlc (by simp)
            · simp at hlc
              rw [hlc, hc]
          rw [logText_append]
          exact endsInNewline_append _ _ (endsInNewline_single d hd)
    · have hstep : execStep name args opts s (ExecEvent.stdoutData d) =
          { s with stdout := s.stdout ++ d } := by
        simp [execStep, hb]
      rw [hstep]
      intro hante
      exact h hante
  | stderrData d =>
    by_cases hb : opts.logger = true
    · have hstep : execStep name args opts s (ExecEvent.stderrData d) =
          { s with log := s.log ++ [d], lastChar := lastCharOf d,
                   stderr := s.stderr ++ d } := by
        simp [execStep, hb]
      rw [hstep]
      intro hante
      show endsInNewline (logText (s.log ++ [d])) = true
      cases hlc : lastCharOf d with
      | empty =>
        exact absurd hlc (by unfold lastCharOf; split <;> simp)
      | undef =>
        simp only [] at hante
        rw [hlc] at hante
        rcases hante with h1 | h1 <;> exact absurd h1 (by simp)
      | chr c =>
        simp only [] at hante
        rw [hlc] at hante
        rcases hante with h1 | h1
        · exact absurd h1 (by simp)
        · have hc : c = '\n' := by
            simpa using h1
          have hd : d.data.getLast? = some '\n' := by
            unfold lastCharOf at hlc
            rcases hg : d.data.getLast? with _ | c2 <;> rw [hg] at hlc
            · exact absurd hlc (by simp)
            · simp at hlc
              rw [hlc, hc]
          rw [logText_append]
          exact endsInNewline_append _ _ (endsInNewline_single d hd)
    · have hstep : execStep name args opts s (ExecEvent.stderrData d) =
          { s with stderr := s.stderr ++ d } := by
        simp [execStep, hb]
      rw [hstep]
      intro hante
      exact h hante
  | close st =>
    intro hante
    have hante' : s.lastChar = LastChar.empty ∨ s.lastChar = LastChar.chr '\n' := by
      have e1 : (execStep name args opts s (ExecEvent.close st)).lastChar
          = s.lastChar := by
        simp only [execStep]
        rw [resolveOnce_lastChar]
        split <;> simp [resolveOnce_lastChar, flushNewline_lastChar]
      rwa [e1] at hante
    have hn : needsNewline s.lastChar = false := by
      rcases hante' with h1 | h1 <;> simp [needsNewline, h1]
    have hf : flushNewline opts s = s := by
      simp [flushNewline, hn]
    have e2 : (execStep name args opts s (ExecEvent.close st)).log = s.log := by
      simp only [execStep]
      rw [resolveOnce_log]
      split <;> simp [resolveOnce_log, hf]
    rw [e2]
    exact h hante'
  | spawnErr msg =>
    intro hante
    have hante' : s.lastChar = LastChar.empty ∨ s.lastChar = LastChar.chr '\n' := by
      have e1 : (execStep name args opts s (ExecEvent.spawnErr msg)).lastChar
          = s.lastChar := by
        simp only [execStep]
        rw [resolveOnce_lastChar, flushNewline_lastChar]
      rwa [e1] at hante
    have hn : needsNewline s.lastChar = false := by
      rcases hante' with h1 | h1 <;> simp [needsNewline, h1]
    have hf : flushNewline opts s = s := by
      simp [flushNewline, hn]
    have e2 : (execStep name args opts s (ExecEvent.spawnErr msg)).log = s.log := by
      simp only [execStep]
      rw [resolveOnce_log, hf]
    rw [e2]
    exact h hante'
  | cancel =>
    intro hante
    have e1 : (execStep name args opts s ExecEvent.cancel).lastChar
        = s.lastChar := by
      simp only [execStep]
      rw [resolveOnce_lastChar]
    have e2 : (execStep name args opts s ExecEvent.cancel).log = s.log := by
      simp only [execStep]
      rw [resolveOnce_log]
    rw [e1] at hante
    rw [e2]
    exact h hante

theorem logOk_run (name : String) (args : List String) (opts : ExecOpts)
    (es : List ExecEvent) (s : ExecState) (h : LogOk s) :
    LogOk (es.foldl (execStep name args opts) s) := by
  induction es generalizing s with
  | nil => exact h
  | cons e rest ih =>
    rw [List.foldl_cons]
    exact ih _ (logOk_step name args opts s h e)

theorem execStep_close_flush (name : String) (args : List String)
    (opts : ExecOpts) (t : ExecState) (st : Option Int)
    (hlog : opts.logger = true) (h : LogOk t) :
    endsInNewline (logText
      (execStep name args opts t (ExecEvent.close st)).log) = true := by
  have hl : (execStep name args opts t (ExecEvent.close st)).log
      = (flushNewline opts t).log := by
    simp only [execStep]
    rw [resolveOnce_log]
    split <;> simp [resolveOnce_log]
  rw [hl]
  by_cases hn : needsNewline t.lastChar = true
  · have hf : (flushNewline opts t).log = t.log ++ ["\n"] := by
      simp [flushNewline, hlog, hn]
    rw [hf, logText_append]
    exact endsInNewline_append _ _ (endsInNewline_single _ rfl)
  · have hf : (flushNewline opts t).log = t.log := by
      simp [flushNewline, hn]
    rw [hf]
    apply h
    cases hlc : t.lastChar with
    | empty => exact Or.inl rfl
    | undef =>
      rw [hlc] at hn
      exact absurd rfl hn
    | chr c =>
      rw [hlc] at hn
      simp [needsNewline] at hn
      rw [hn]
      exact Or.inr rfl

theorem execStep_spawnErr_flush (name : String) (args : List String)
    (opts : ExecOpts) (t : ExecState) (msg : String)
    (hlog : opts.logger = true) (h : LogOk t) :
    endsInNewline (logText
      (execStep name args opts t (ExecEvent.spawnErr msg)).log) = true := by
  have hl : (execStep name args opts t (ExecEvent.spawnErr msg)).log
      = (flushNewline opts t).log := by
    simp only [execStep]
    rw [resolveOnce_log]
  rw [hl]
  by_cases hn : needsNewline t.lastChar = true
  · have hf : (flushNewline opts t).log = t.log ++ ["\n"] := by
      simp [flushNewline, hlog, hn]
    rw [hf, logText_append]
    exact endsInNewline_append _ _ (endsInNewline_single _ rfl)
  · have hf : (flushNewline opts t).log = t.log := by
      simp [flushNewline, hn]
    rw [hf]
    apply h
    cases hlc : t.lastChar with
    | empty => exact Or.inl rfl
    | undef =>
      rw [hlc] at hn
      exact absurd rfl hn
    | chr c =>
      rw [hlc] at hn
      simp [needsNewline] at hn
      rw [hn]
      exact Or.inr rfl

/-- C5 counterexample: with a logger and `logStdout` set, the stdout chunk
`"ab"` is passed to `append` verbatim, not newline-terminated, so it is not
true that every chunk handed to the logger ends with a newline. -/
theorem exec_log_chunk_not_newline_terminated :
    "ab" ∈ (processExec "x" [] { logger := true, logStdout := true }
      [ExecEvent.stdoutData "ab", ExecEvent.close (some 0)]).log ∧
    endsInNewline "ab" = false := by
  constructor
  · show "ab" ∈ ["x" ++ "\n", "ab", "\n"]
    simp
  · rfl

/-- C5 amended (exec logging newline guarantee).  With a logger provided,
chunks are streamed verbatim, and on flush — the close or spawn-error event
— a trailing newline is appended exactly when the last character logged was
not one; hence the cumulative text passed to the logger is always
newline-terminated once the process closes (or fails to spawn). -/
theorem exec_log_flush_newline (name : String) (args : List String)
    (opts : ExecOpts) (es : List ExecEvent) (st : Option Int) (msg : String)
    (hlog : opts.logger = true) :
    endsInNewline (logText
      (processExec name args opts (es ++ [ExecEvent.close st])).log) = true ∧
    endsInNewline (logText
      (processExec name args opts (es ++ [ExecEvent.spawnErr msg])).log)
        = true := by
  have h0 : LogOk (es.foldl (execStep name args opts)
      (execInit name args opts)) :=
    logOk_run name args opts es _ (logOk_init name args opts hlog)
  constructor
  · have happ : processExec name args opts (es ++ [ExecEvent.close st]) =
        execStep name args opts
          (es.foldl (execStep name args opts) (execInit name args opts))
          (ExecEvent.close st) := by
      simp [processExec, List.foldl_append]
    rw [happ]
    exact execStep_close_flush name args opts _ st hlog h0
  · have happ : processExec name args opts (es ++ [ExecEvent.spawnErr msg]) =
        execStep name args opts
          (es.foldl (execStep name args opts) (execInit name args opts))
          (ExecEvent.spawnErr msg) := by
      simp [processExec, List.foldl_append]
    rw [happ]
    exact execStep_spawnErr_flush name args opts _ msg hlog h0

/-- Witness for the amended C5 at a concrete run whose last data chunk does
not end in a newline. -/
theorem exec_log_flush_newline_witness :
    endsInNewline (logText (processExec "x" []
      { logger := true, logStdout := true }
      ([ExecEvent.stdoutData "ab"] ++ [ExecEvent.close (some 0)])).log)
        = true :=
  (exec_log_flush_newline "x" [] { logger := true, logStdout := true }
    [ExecEvent.stdoutData "ab"] (some 0) "m" rfl).1

/-! ## Compilation-database service (compdb_service/index.ts, class Ebuild) -/

/-- Modelled from the spec: the board-or-host target identifier
(board_or_host.ts is not under src/).  A target is a named board or the
host; `toStr` is its string form used in the Mutex key. -/
inductive BoardOrHost where
  | board (name : String)
  | host
deriving DecidableEq, Repr

def BoardOrHost.toStr : BoardOrHost → String
  | BoardOrHost.board n => n
  | BoardOrHost.host => "host"

/-- The key computed by `Ebuild.mutex()`:
`` `${board}:${qualifiedPackageName}:${crosFs.source.root}` ``. -/
def mutexKey (b : BoardOrHost) (pkg root : String) : String :=
  b.toStr ++ ":" ++ pkg ++ ":" ++ root

/-- `Ebuild.globalMutexMap` as an association list from keys to Mutex
identities; `Ebuild.mutex()` returns the existing entry or inserts a fresh
`new Mutex()` (identified by the current registry size, so distinct
creations have distinct identities).  Nothing is ever removed. -/
def lookupMutex (reg : List (String × Nat)) (key : String) :
    Nat × List (String × Nat) :=
  match reg.find? (fun e => e.1 == key) with
  | some e => (e.2, reg)
  | none => (reg.length, reg ++ [(key, reg.length)])

/-- Well-formed registries: identities are exactly the insertion positions
and keys are never duplicated. -/
def WFreg (reg : List (String × Nat)) : Prop :=
  reg.map Prod.snd = List.range reg.length ∧ (reg.map Prod.fst).Nodup

theorem lookupMutex_wf (reg : List (String × Nat)) (key : String)
    (h : WFreg reg) : WFreg (lookupMutex reg key).2 := by
  obtain ⟨h1, h2⟩ := h
  unfold lookupMutex
  cases hf : reg.find? (fun e => e.1 == key) with
  | some e => exact ⟨h1, h2⟩
  | none =>
    constructor
    · simp [h1, List.range_succ]
    · have hk : key ∉ reg.map Prod.fst := by
        intro hmem
        obtain ⟨e, he, hke⟩ := List.mem_map.mp hmem
        have := List.find?_eq_none.mp hf e he
        simp [hke] at this
      simp [List.nodup_append, h2, hk]

theorem lookupMutex_mem (reg : List (String × Nat)) (key : String) :
    (key, (lookupMutex reg key).1) ∈ (lookupMutex reg key).2 := by
  unfold lookupMutex
  cases hf : reg.find? (fun e => e.1 == key) with
  | some e =>
    have hp := List.find?_some hf
    have hm := List.mem_of_find?_eq_some hf
    simp at hp
    rw [← hp]
    simpa using hm
  | none => simp

theorem lookupMutex_append_only (reg : List (String × Nat)) (key : String) :
    ∃ t, (lookupMutex reg key).2 = reg ++ t := by
  unfold lookupMutex
  cases hf : reg.find? (fun e => e.1 == key) with
  | some e => exact ⟨[], by simp⟩
  | none => exact ⟨[(key, reg.length)], rfl⟩

theorem lookupMutex_idem (reg : List (String × Nat)) (key : String) :
    lookupMutex (lookupMutex reg key).2 key =
      ((lookupMutex reg key).1, (lookupMutex reg key).2) := by
  unfold lookupMutex
  cases hf : reg.find? (fun e => e.1 == key) with
  | some e => simp [hf]
  | none =>
    simp only [hf]
    have hfind : (reg ++ [(key, reg.length)]).find? (fun e => e.1 == key)
        = some (key, reg.length) := by
      rw [List.find?_append, hf]
      simp
    simp [hfind]

theorem wf_snd_inj (reg : List (String × Nat)) (h : WFreg reg) :
    ∀ e1 ∈ reg, ∀ e2 ∈ reg, e1.2 = e2.2 → e1 = e2 := by
  have hnd : (reg.map Prod.snd).Nodup := by
    rw [h.1]
    exact List.nodup_range _
  exact List.inj_on_of_nodup_map hnd

/-- C7 counterexample: two operations whose key triples differ (in package
name and source root) nevertheless produce the same joined key string, so
the registry hands back the identical Mutex instance — the claim that
operations differing in any key component obtain distinct Mutex instances
is false as stated. -/
theorem compdb_mutex_key_collision :
    ((BoardOrHost.board "a", "b", "c:d") ≠ (BoardOrHost.board "a", "b:c", "d")) ∧
    mutexKey (BoardOrHost.board "a") "b" "c:d"
      = mutexKey (BoardOrHost.board "a") "b:c" "d" ∧
    (lookupMutex
        (lookupMutex [] (mutexKey (BoardOrHost.board "a") "b" "c:d")).2
        (mutexKey (BoardOrHost.board "a") "b:c" "d")).1
      = (lookupMutex [] (mutexKey (BoardOrHost.board "a") "b" "c:d")).1 := by
  refine ⟨by decide, by decide, by decide⟩

/-- C7 amended (compilation-database Mutex keying).  Equal key triples give
the identical lazily-created Mutex: a second lookup of the same key returns
the same identity and leaves the registry unchanged (conjunct 1); the
registry only ever grows (no eviction, conjunct 2).  Distinct *joined key
strings* are guaranteed distinct Mutex instances (conjunct 3) — distinct
triples alone are not enough because a component may contain the `:`
separator.  Jobs on one Mutex instance never run concurrently (conjunct 4,
the serial log shape). -/
theorem compdb_mutex_registry (reg : List (String × Nat)) (b b2 : BoardOrHost)
    (p r p2 r2 : String) (hwf : WFreg reg) :
    (lookupMutex (lookupMutex reg (mutexKey b p r)).2 (mutexKey b p r)
        = ((lookupMutex reg (mutexKey b p r)).1,
           (lookupMutex reg (mutexKey b p r)).2)) ∧
    (∃ t, (lookupMutex reg (mutexKey b p r)).2 = reg ++ t) ∧
    (mutexKey b p r ≠ mutexKey b2 p2 r2 →
      (lookupMutex (lookupMutex reg (mutexKey b p r)).2 (mutexKey b2 p2 r2)).1
        ≠ (lookupMutex reg (mutexKey b p r)).1) ∧
    (∀ (β : Type) (cmds : List (MCmd β)),
      ∃ f rr, (mxRun cmds).log = logShape f rr) := by
  refine ⟨lookupMutex_idem reg (mutexKey b p r),
    lookupMutex_append_only reg (mutexKey b p r), ?_, ?_⟩
  · intro hne heq
    have hwf1 : WFreg (lookupMutex reg (mutexKey b p r)).2 :=
      lookupMutex_wf reg (mutexKey b p r) hwf
    have hwf2 : WFreg
        (lookupMutex (lookupMutex reg (mutexKey b p r)).2 (mutexKey b2 p2 r2)).2 :=
      lookupMutex_wf _ (mutexKey b2 p2 r2) hwf1
    have hmem2 := lookupMutex_mem (lookupMutex reg (mutexKey b p r)).2
      (mutexKey b2 p2 r2)
    have hmem1 := lookupMutex_mem reg (mutexKey b p r)
    obtain ⟨t, ht⟩ := lookupMutex_append_only
      (lookupMutex reg (mutexKey b p r)).2 (mutexKey b2 p2 r2)
    have hmem1' : (mutexKey b p r, (lookupMutex reg (mutexKey b p r)).1)
        ∈ (lookupMutex (lookupMutex reg (mutexKey b p r)).2
            (mutexKey b2 p2 r2)).2 := by
      rw [ht]
      exact List.mem_append_left _ hmem1
    have := wf_snd_inj _ hwf2 _ hmem2 _ hmem1' heq
    exact hne (congrArg Prod.fst this).symm
  · intro β cmds
    rcases mxRun_inv cmds with ⟨_, _, h3, _⟩ | ⟨f, _, _, h3, _, _⟩
    · exact ⟨_, false, h3⟩
    · exact ⟨f, true, h3⟩

/-- Witness for the amended C7: from an empty registry, looking up the host
target with package `p` and then with package `q` (colon-free components, so
the keys differ) yields distinct Mutex identities. -/
theorem compdb_mutex_registry_witness :
    (lookupMutex (lookupMutex [] (mutexKey BoardOrHost.host "p" "r")).2
        (mutexKey BoardOrHost.host "q" "r")).1
      ≠ (lookupMutex [] (mutexKey BoardOrHost.host "p" "r")).1 :=
  (compdb_mutex_registry [] BoardOrHost.host BoardOrHost.host "p" "r" "q" "r"
    ⟨rfl, List.nodup_nil⟩).2.2.1 (by decide)

/-- Modelled from the spec: the typed generator error (error.ts is not under
src/) — a kind discriminant plus, for cache-removal failures, the marker
file path and the underlying filesystem error (identified by a number). -/
structure CompdbErr where
  kind : String
  cache : String
  reason : Nat
deriving DecidableEq, Repr

/-- Outcome of one root of the `removeCache` inner loop: both `rm` calls
succeeded, or the removal of `.configured` (respectively `.compiled`) threw
the given filesystem error. -/
inductive RootAttempt where
  | ok
  | failConfigured (e : Nat)
  | failCompiled (e : Nat)
deriving DecidableEq, Repr

/-- The error recorded by the `catch` block for one root, if any; `cache` is
the path the local variable held when the throw happened. -/
def removeCacheRoot (dir : String) (a : RootAttempt) : Option CompdbErr :=
  match a with
  | RootAttempt.ok => none
  | RootAttempt.failConfigured e =>
    some { kind := "RemoveCache", cache := dir ++ "/.configured", reason := e }
  | RootAttempt.failCompiled e =>
    some { kind := "RemoveCache", cache := dir ++ "/.compiled", reason := e }

/-- `Ebuild.removeCache` for one build directory.  The two roots (chroot,
out) are attempted in order; each failing root assigns the single error
variable (the later assignment overwrites the earlier one) and each
succeeding root sets `hasRemovedCache`; if no root succeeded the recorded
error is thrown. -/
def removeCacheDir (dir : String) (chrootA outA : RootAttempt) :
    Except CompdbErr Unit :=
  let f1 := removeCacheRoot dir chrootA
  let f2 := removeCacheRoot dir outA
  let hasRemovedCache := f1.isNone || f2.isNone
  let recorded := match f2 with
    | some e2 => some e2
    | none => f1
  if hasRemovedCache then Except.ok ()
  else
    match recorded with
    | some e => Except.error e
    | none => Except.ok ()  -- unreachable: a root either succeeds or records an error

/-- `Ebuild.removeCache` over the candidate build directories: the first
directory whose removal fails through every root aborts the loop with its
recorded error. -/
def removeCache : List (String × RootAttempt × RootAttempt) →
    Except CompdbErr Unit
  | [] => Except.ok ()
  | (dir, a1, a2) :: rest =>
    match removeCacheDir dir a1 a2 with
    | Except.error e => Except.error e
    | Except.ok _ => removeCache rest

deriving instance DecidableEq for Except

/-- C8 (cache-marker removal error policy) — evaluation at the failing
input.  When both roots fail for a directory, the error raised is the one
recorded *last* (the out root), not the first encountered one (the chroot
root): the `catch` block overwrites `firstError` unconditionally.  Partial
failure is tolerated whenever at least one root succeeds, and a failing
directory aborts the loop with its recorded error. -/
theorem removeCache_raises_last_error :
    removeCacheDir "d" (RootAttempt.failConfigured 1) (RootAttempt.failConfigured 2)
      = Except.error { kind := "RemoveCache", cache := "d/.configured", reason := 2 } ∧
    removeCacheDir "d" (RootAttempt.failConfigured 1) (RootAttempt.failConfigured 2)
      ≠ Except.error { kind := "RemoveCache", cache := "d/.configured", reason := 1 } ∧
    removeCacheDir "d" (RootAttempt.failConfigured 1) RootAttempt.ok
      = Except.ok () ∧
    removeCacheDir "d" RootAttempt.ok (RootAttempt.failCompiled 3)
      = Except.ok () ∧
    removeCache [("d1", RootAttempt.ok, RootAttempt.ok),
        ("d2", RootAttempt.failCompiled 4, RootAttempt.failConfigured 5),
        ("d3", RootAttempt.ok, RootAttempt.ok)]
      = Except.error { kind := "RemoveCache", cache := "d2/.configured", reason := 5 } := by
  refine ⟨by decide, by decide, by decide, by decide, by decide⟩

/-- The `Artifact` record: base filesystem root and path. -/
structure Artifact where
  baseDir : String
  path : String
deriving DecidableEq, Repr

/-- A JavaScript `Date` (an `mtime` from `fs.stat`) as observable here: its
`toString()` form — what `Array.prototype.sort` with no comparator actually
compares — and its epoch milliseconds, the real point in time. -/
structure JsDate where
  str : String
  epochMs : Nat
deriving DecidableEq, Repr

/-- `String(candidate)` for a `[Date, Artifact]` pair: the date string, a
comma, and `"[object Object]"`.  The default sort comparator orders
candidates by this string. -/
def candKey (c : JsDate × Artifact) : String :=
  c.1.str ++ ",[object Object]"

/-- Lexicographic comparison of character lists by code point — the order
JavaScript string comparison uses (these strings are ASCII, where UTF-16
code-unit order and code-point order agree). -/
def charListLe : List Char → List Char → Bool
  | [], _ => true
  | _ :: _, [] => false
  | a :: as, b :: bs =>
    if a.toNat < b.toNat then true
    else if b.toNat < a.toNat then false
    else charListLe as bs

def strLe (a b : String) : Bool :=
  charListLe a.data b.data

/-- Stable insertion by `candKey` (JavaScript sort is stable; an element is
placed before the later-arriving elements with an equal key). -/
def insertByKey (c : JsDate × Artifact) :
    List (JsDate × Artifact) → List (JsDate × Artifact)
  | [] => [c]
  | d :: rest =>
    if strLe (candKey c) (candKey d) then c :: d :: rest
    else d :: insertByKey c rest

/-- `candidates.sort()` with no comparator: sort by the string form of each
element. -/
def jsSort : List (JsDate × Artifact) → List (JsDate × Artifact)
  | [] => []
  | c :: rest => insertByKey c (jsSort rest)

/-- `Ebuild.artifactPath`: for each build directory and each root whose
`fs.stat` succeeds, gather `[stat.mtime, {path, baseDir}]`; return
`undefined` when nothing was found, else `candidates.sort().pop()![1]`. -/
def artifactPath (dirs roots : List String)
    (stat : String → String → Option JsDate) : Option Artifact :=
  let candidates := dirs.flatMap fun d =>
    roots.filterMap fun rt =>
      (stat rt (d ++ "/out/Default/compile_commands_no_chroot.json")).map
        fun m => (m, ({ baseDir := rt, path := d ++ "/out/Default/compile_commands_no_chroot.json" } : Artifact))
  match (jsSort candidates).getLast? with
  | none => none
  | some c => some c.2

/-- C9 (artifact selection) — evaluation at the failing input.  With two
candidates whose modification times are Thu Jan 01 2026 (older, under the
out root) and Fri Jan 02 2026 (newer, under the chroot root), the default
sort compares the date *strings*, which start with the weekday name:
`"Fri..."` sorts before `"Thu..."`, so `pop()` returns the *older* Thursday
artifact, not the most recently modified one.  With no candidates the
function returns `undefined` rather than an error. -/
theorem artifactPath_not_most_recent :
    artifactPath ["d1"] ["/chroot", "/out"]
        (fun rt _ => if rt == "/chroot" then
          some { str := "Fri Jan 02 2026 00:00:00 GMT+0000 (Coordinated Universal Time)", epochMs := 1767312000000 }
        else
          some { str := "Thu Jan 01 2026 00:00:00 GMT+0000 (Coordinated Universal Time)", epochMs := 1767225600000 })
      = some { baseDir := "/out",
               path := "d1/out/Default/compile_commands_no_chroot.json" } ∧
    (1767225600000 : Nat) < 1767312000000 ∧
    artifactPath ["d1"] ["/chroot", "/out"] (fun _ _ => none) = none := by
  refine ⟨by decide, by decide, by decide⟩
